import Mathlib

/-!
Verification of the ScanPyImports repository (scan.py / analyzer.py) against its
natural-language specification.

The development shallowly embeds the code's text processing over `List Char`:
Python strings are lists of characters, Python regular-expression calls are
translated into the explicit scanning functions they implement on the inputs the
program feeds them (single lines without newline for the per-line patterns), and
the pandas data frames of analyzer.py are lists of `Row` records.  Fallible
Python code (constructors that raise) is modelled with `Except`.
-/

namespace ScanPyImports

/-- Convert a Lean string literal to the `List Char` representation used
throughout the model. -/
def str (s : String) : List Char := s.toList

/-- Python `\s` (whitespace class) restricted to ASCII, as used by `str.strip`
and the `\s*` in the import-line pattern. -/
def isPySpace (c : Char) : Bool :=
  c = ' ' || c = '\t' || c = '\n' || c = '\r' || c = '\x0b' || c = '\x0c'

/-- Python `\w` (word character) restricted to ASCII: letters, digits and
underscore.  Used for the `\b` word boundaries of the alias pattern. -/
def wordCharB (c : Char) : Bool :=
  c.isAlphanum || c = '_'

/-- Python `str.strip()`: remove leading and trailing whitespace. -/
def pyStrip (l : List Char) : List Char :=
  ((l.dropWhile isPySpace).reverse.dropWhile isPySpace).reverse

/-- Python `str.split(sep)` for a single-character separator:
`''.split(sep) = ['']`, and every occurrence of `sep` starts a new field. -/
def pySplit (sep : Char) : List Char → List (List Char)
  | [] => [[]]
  | c :: rest =>
    match pySplit sep rest with
    | [] => [[c]]
    | h :: t => if c = sep then [] :: h :: t else (c :: h) :: t

/-- Index of the first occurrence of `pat` as a contiguous substring of `s`
(`re.search` position of a literal pattern), if any. -/
def findSubstrIdx (pat : List Char) : List Char → Option Nat
  | [] => if pat.isPrefixOf ([] : List Char) then some 0 else none
  | s@(_ :: t) =>
    if pat.isPrefixOf s then some 0
    else (findSubstrIdx pat t).map (· + 1)

/-- All start indices of occurrences of `pat` as a contiguous substring of `s`,
in increasing order. -/
def patIndicesAux (pat : List Char) : List Char → Nat → List Nat
  | [], i => if pat.isPrefixOf ([] : List Char) then [i] else []
  | s@(_ :: t), i =>
    (if pat.isPrefixOf s then [i] else []) ++ patIndicesAux pat t (i + 1)

/-- All start indices of occurrences of `pat` in `s`. -/
def patIndices (pat s : List Char) : List Nat :=
  patIndicesAux pat s 0

/-- Python's substring containment `pat in s`. -/
def containsSubstr (pat s : List Char) : Bool :=
  (findSubstrIdx pat s).isSome

/-- Lexicographic strict comparison of strings by character code point, the
order pandas uses when sorting string group keys. -/
def strLtB : List Char → List Char → Bool
  | [], [] => false
  | [], _ :: _ => true
  | _ :: _, [] => false
  | a :: as, b :: bs =>
    if a.toNat < b.toNat then true
    else if b.toNat < a.toNat then false
    else strLtB as bs

/-- Non-strict companion of `strLtB`. -/
def strLeB (a b : List Char) : Bool := !(strLtB b a)

/-!
Model of `scan.Line`, the statement parser.

`Line.get_from_import` searches one line of code with the pattern
`(?:from(.*?))*(?:import)(.*)`.  On a newline-free line the backtracking search
behaves as follows (literal alternatives `from`/`import` cannot overlap
themselves or each other): if the literal `import` does not occur, there is no
match and both parts are the empty string; otherwise, writing `i0` for the
first occurrence of `import`, group 2 captures everything after that `import`,
and group 1 captures the text strictly between the last occurrence of `from`
before `i0` and `i0` (group 1 is `None`, read back as the empty string, when no
`from` precedes `i0`).  Both groups then go through
`i.replace('(', '').strip()`.
-/

/-- The post-processing `i.replace('(','').strip()` applied to each captured
group in `Line.get_from_import`. -/
def cleanGroup (g : List Char) : List Char :=
  pyStrip (g.filter (fun c => c ≠ '('))

/-- Model of `Line.get_from_import`: split a line into its `from` part and its
`import` part, as the regex `(?:from(.*?))*(?:import)(.*)` does (see above). -/
def getFromImport (s : List Char) : List Char × List Char :=
  match findSubstrIdx (str ("import")) s with
  | none => ([], [])
  | some i0 =>
    let g2 := s.drop (i0 + 6)
    match ((patIndices (str ("from")) s).filter (fun p => p < i0)).getLast? with
    | none => ([], cleanGroup g2)
    | some l => (cleanGroup ((s.take i0).drop (l + 4)), cleanGroup g2)

/-- Model of `Line.get_imports`: the `from` part is split on `.` (empty list
when there is no `from` part), the `import` part is split on `,` with each
target stripped, and each target contributes the path
`from_items ++ target.split('.')`. -/
def getImports (lfrom limports : List Char) : List (List (List Char)) :=
  let fromItems := if lfrom.isEmpty then [] else pySplit '.' lfrom
  let importItems := (pySplit ',' limports).map pyStrip
  importItems.map (fun i => fromItems ++ pySplit '.' i)

/-- First index at which the alias pattern `(.*?)(\bas\b)( .*)` can place its
`as`: the scan looks for a literal `as` preceded by a word boundary and
followed by a space (the space makes the trailing word boundary automatic).
The boundary before position 0 always holds; `prev` carries the previous
character. -/
def boundaryOkB (prev : Option Char) : Bool :=
  match prev with
  | none => true
  | some p => !(wordCharB p)

/-- After the `a` of a candidate `as`, the pattern requires the literal `s`
followed by the space of group 3. -/
def asSpaceTest : List Char → Bool
  | c1 :: c2 :: _ => c1 = 's' && c2 = ' '
  | _ => false

/-- Scan for the first viable `as` of the alias pattern (see `aliasIdx?`). -/
def aliasIdxAux (prev : Option Char) : List Char → Option Nat
  | [] => none
  | c :: rest =>
    if c = 'a' && boundaryOkB prev && asSpaceTest rest then some 0
    else (aliasIdxAux (some c) rest).map (· + 1)

/-- Position of the `as` matched by `re.search(r'(.*?)(\bas\b)( .*)', s)`, if
the pattern matches at all.  Since group 1 is a lazy `.*?`, the match uses the
first viable occurrence. -/
def aliasIdx? (s : List Char) : Option Nat :=
  aliasIdxAux none s

/-- Model of `Line.get_alias`: returns `(alias, statement-without-alias)`.
With no match the alias is empty and the statement is returned unchanged;
otherwise group 1 (text before `as`) and group 3 (text after `as`, including
its leading space) are both stripped. -/
def getAlias (s : List Char) : List Char × List Char :=
  match aliasIdx? s with
  | none => ([], s)
  | some i => (pyStrip (s.drop (i + 2)), pyStrip (s.take i))

/-- Replace the last segment of an import path by its alias-stripped form and
return the extracted alias, as `Line.get_alias_list` does via
`item[-1] = submodule`. -/
def stripAliasSeg (item : List (List Char)) : List (List Char) × List Char :=
  let lastSeg := item.getLastD []
  let p := getAlias lastSeg
  (item.dropLast ++ [p.2], p.1)

/-- Model of `Line.get_alias_list`: alias-strip every path's last segment and
collect the aliases (empty string when a path has no alias). -/
def getAliasList (imports : List (List (List Char))) :
    List (List (List Char)) × List (List Char) :=
  let pairs := imports.map stripAliasSeg
  (pairs.map Prod.fst, pairs.map Prod.snd)

/-- Model of `Line.__init__`: the `imports` and `alias` attributes computed for
one import statement. -/
def lineParse (text : List Char) : List (List (List Char)) × List (List Char) :=
  let fi := getFromImport text
  getAliasList (getImports fi.1 fi.2)

/-- The `imports` attribute of a `Line`: one path (list of segments) per import
target. -/
def lineImports (text : List Char) : List (List (List Char)) :=
  (lineParse text).1

/-- The `alias` attribute of a `Line`: one alias (possibly empty) per import
target. -/
def lineAliases (text : List Char) : List (List Char) :=
  (lineParse text).2

/-- The stripped comma-separated import targets of a line
(`import_items` in `Line.get_imports`). -/
def lineTargets (text : List Char) : List (List Char) :=
  (pySplit ',' (getFromImport text).2).map pyStrip

/-- The from-clause segments of a line (`from_items` in `Line.get_imports`). -/
def fromSegs (text : List Char) : List (List Char) :=
  let f := (getFromImport text).1
  if f.isEmpty then [] else pySplit '.' f

/-!
Model of `scan.File`, the file scanner.

`File.remove_all_comments` is
`re.sub(r'\"\"\"(.|\n)*?\"\"\"|\'\'\'(.|\n)*?\'\'\'|(#.*)', '', code)`:
a left-to-right scan replacing, at the first position where one fires, either
a terminated triple-double-quoted block, a terminated triple-single-quoted
block, or a `#` together with the rest of its line (`.` does not cross the
newline, which is kept).  An unterminated triple quote does not match, so its
opening quotes survive as ordinary characters and scanning continues after the
first of them.
-/

/-- The single-quote character, written by code point to keep the source free
of quote-escape noise. -/
def sq : Char := Char.ofNat 39

/-- The double-quote character. -/
def dq : Char := Char.ofNat 34

/-- Three double quotes, the `\"\"\"` delimiter. -/
def tripleDq : List Char := [dq, dq, dq]

/-- Three single quotes, the `'''` delimiter. -/
def tripleSq : List Char := [sq, sq, sq]

/-- Model of `File.remove_all_comments` (see the section comment above).  The
scan consumes at least one character per step, so a fuel of the input's length
is always enough; the structural recursion on the fuel keeps the function
kernel-reducible. -/
def removeAllCommentsFuel : Nat → List Char → List Char
  | 0, _ => []
  | _ + 1, [] => []
  | fuel + 1, c :: rest =>
    if tripleDq.isPrefixOf (c :: rest) then
      match findSubstrIdx tripleDq ((c :: rest).drop 3) with
      | some j => removeAllCommentsFuel fuel ((c :: rest).drop (3 + (j + 3)))
      | none => c :: removeAllCommentsFuel fuel rest
    else if tripleSq.isPrefixOf (c :: rest) then
      match findSubstrIdx tripleSq ((c :: rest).drop 3) with
      | some j => removeAllCommentsFuel fuel ((c :: rest).drop (3 + (j + 3)))
      | none => c :: removeAllCommentsFuel fuel rest
    else if c = '#' then
      removeAllCommentsFuel fuel (rest.dropWhile (fun d => d ≠ '\n'))
    else
      c :: removeAllCommentsFuel fuel rest

/-- Model of `File.remove_all_comments`. -/
def removeAllComments (s : List Char) : List Char :=
  removeAllCommentsFuel s.length s

/-- Model of `File.get_code_lines`: `None` or an empty text gives no lines
(`if not self.code`); otherwise comments are removed and the text is split on
newlines. -/
def getCodeLines (code : Option (List Char)) : List (List Char) :=
  match code with
  | none => []
  | some c => if c.isEmpty then [] else pySplit '\n' (removeAllComments c)

/-- Model of `File.compile_import` applied to one (newline-free) line:
`re.search(r'^\s*(import|from) ', line)` succeeds exactly when the line, after
its leading whitespace, starts with `import ` or `from `. -/
def isImportLine (l : List Char) : Bool :=
  let t := l.dropWhile isPySpace
  (str ("import ")).isPrefixOf t || (str ("from ")).isPrefixOf t

/-- Model of `File.get_import_lines`: keep the matching lines, stripped. -/
def getImportLines (lines : List (List Char)) : List (List Char) :=
  (lines.filter isImportLine).map pyStrip

/-- The `statements` attribute of a `File`, as produced from its (possibly
failed) text extraction. -/
def fileStatements (code : Option (List Char)) : List (List Char) :=
  getImportLines (getCodeLines code)

/-!
Model of `scan.Directory`, `analyzer.Data` and the data frame rows.

The filesystem (`os.path`, `os.walk`, `os.listdir`, `open().read()` and the
notebook cell extraction, which the spec treats as external collaborators) is
abstracted as an `FS` record of oracles.  A data frame row of
`Data._create_df` becomes a `Row`; the ragged `imported_0, imported_1, ...`
columns are represented by the `imported` list of path segments (two rows are
equal in the wide frame exactly when all their fields below are equal, since
missing trailing columns are padded uniformly).
-/

/-- One row of the import data frame built by `Data._create_df`. -/
structure Row where
  imported : List (List Char)
  aliasCol : List Char
  original : List Char
  path : List Char
  file : List Char
  filename : List Char
  extension : List Char
  directory : List Char
deriving DecidableEq

/-- The file extension, `filepath.split('.')[-1]` as in `File.__init__`. -/
def extOf (p : List Char) : List Char :=
  (pySplit '.' p).getLastD []

/-- POSIX `os.path.basename`: the part after the last `/`. -/
def basenameOf (p : List Char) : List Char :=
  (p.reverse.takeWhile (fun c => c ≠ '/')).reverse

/-- POSIX `os.path.dirname`: the part before the last `/`, with trailing
slashes stripped unless the result is all slashes. -/
def dirnameOf (p : List Char) : List Char :=
  let head := (p.reverse.dropWhile (fun c => c ≠ '/')).reverse
  if head.all (fun c => c = '/') then head
  else (head.reverse.dropWhile (fun c => c = '/')).reverse

/-- The filename without extension, `os.path.basename(file).split('.')[0]`. -/
def filenameOf (p : List Char) : List Char :=
  (pySplit '.' (basenameOf p)).headD []

/-- The rows contributed by one file, given its path and the (possibly failed)
text extraction: one row per import target of each import statement, as in the
per-file loop of `Data._create_df` (the `alias` column aligns with the
paths because both lists of a `Line` have the same length). -/
def fileRows (p : List Char) (code : Option (List Char)) : List Row :=
  (fileStatements code).flatMap (fun stmt =>
    ((lineImports stmt).zip (lineAliases stmt)).map (fun pa =>
      { imported := pa.1
        aliasCol := pa.2
        original := stmt
        path := p
        file := basenameOf p
        filename := filenameOf p
        extension := extOf p
        directory := dirnameOf p }))

/-- Filesystem oracles: `os.path.exists`, `os.path.isfile`, the files found by
`os.walk` under a directory, the result of reading a file as UTF-8 text
(`none` when the read raises), the code text extracted from a notebook by
`nbformat` (`none` when that read raises), and `os.listdir`. -/
structure FS where
  pathExists : List Char → Bool
  pathIsFile : List Char → Bool
  walkAll : List Char → List (List Char)
  content : List Char → Option (List Char)
  nbCode : List Char → Option (List Char)
  listdir : List Char → List (List Char)

/-- Model of `Directory.get_filepaths` for an existing path: the path itself if
it is a file, else all `.py`/`.ipynb` files found by the walk. -/
def directoryFilepaths (fs : FS) (p : List Char) : List (List Char) :=
  if fs.pathIsFile p then [p]
  else (fs.walkAll p).filter (fun f =>
    (str (".py")).isSuffixOf f || (str (".ipynb")).isSuffixOf f)

/-- The state of a `Directory` object.  When the path does not exist the
constructor catches its own exception, prints it, and leaves `exists` false;
the `filepaths` attribute is then never assigned (and never read by `Data`),
modelled here by the empty list. -/
structure Directory where
  existsAttr : Bool
  filepaths : List (List Char)

/-- Model of `Directory.__init__`.  Note that a missing path does NOT raise to
the caller: the exception is caught and printed inside the constructor. -/
def directoryInit (fs : FS) (p : List Char) : Directory :=
  if fs.pathExists p then
    { existsAttr := true, filepaths := directoryFilepaths fs p }
  else
    { existsAttr := false, filepaths := [] }

/-- Model of `File.get_code`: a `.py` file is read directly; anything else is
treated as a notebook and its code cells extracted.  A failed read leaves the
method without a return value (`None`). -/
def getCode (fs : FS) (p : List Char) : Option (List Char) :=
  if extOf p = str ("py") then fs.content p else fs.nbCode p

/-- The diagnostics printed by `File.get_code`: a read failure on a `.py` file
is reported unless the path contains `__MACOSX`; a notebook read failure is
always reported. -/
def getCodeReport (fs : FS) (p : List Char) : List (List Char) :=
  if extOf p = str ("py") then
    match fs.content p with
    | some _ => []
    | none =>
      if containsSubstr (str ("__MACOSX")) p then []
      else [str ("ERROR: Cannot read ") ++ p]
  else
    match fs.nbCode p with
    | some _ => []
    | none => [str ("ERROR: Cannot read ") ++ p]

/-- The Python errors the analyzer can surface: the `ValueError` raised by
`Data.__init__` on a missing path (the spec's `PathNotFound`), and the
`AttributeError` raised by `Data.df` when `_create_df` returned `None` and
`None.copy()` is evaluated. -/
inductive PyErr where
  | valueError : PyErr
  | attributeError : PyErr
deriving DecidableEq

/-- Model of `Data._create_df`: `None` when the directory does not exist, the
per-file rows otherwise, skipping files without import statements; `None`
again when no file contributed (`if not data_frames: return None`).  The
column sorting and `imported_<k>` renaming of the source only reshapes the
wide frame and is invisible in the `Row` representation. -/
def createDf (fs : FS) (d : Directory) : Option (List Row) :=
  if d.existsAttr then
    let dfs := (d.filepaths.map (fun p => fileRows p (getCode fs p))).filter
      (fun l => !l.isEmpty)
    if dfs.isEmpty then none else some dfs.flatten
  else none

/-- Model of the `Data.df` property body `self._df.copy()` after `_create_df`:
a `None` frame has no `.copy()`, so the access raises `AttributeError`. -/
def dfProp (fs : FS) (d : Directory) : Except PyErr (List Row) :=
  match createDf fs d with
  | none => Except.error PyErr.attributeError
  | some rows => Except.ok rows

/-- The state of a constructed `Data` object. -/
structure Data where
  path : List Char
  directory : Directory

/-- Model of `Data.__init__`: builds the `Directory` and raises `ValueError`
("The provided directory path does not exist...") when it does not exist. -/
def dataInit (fs : FS) (p : List Char) : Except PyErr Data :=
  let d := directoryInit fs p
  if d.existsAttr then Except.ok { path := p, directory := d }
  else Except.error PyErr.valueError

/-- Constructing the record collection: `Data(path)` followed by reading the
`df` property, the first thing every analysis does. -/
def dataDf (fs : FS) (p : List Char) : Except PyErr (List Row) :=
  match dataInit fs p with
  | Except.error e => Except.error e
  | Except.ok st => dfProp fs st.directory

/-!
Model of `analyzer.DataAnalyzer`.

`clean_df` drops exact duplicate rows (keeping the first occurrence, as
`DataFrame.drop_duplicates` does) and removes relative imports
(`imported_0 == ''`).  `_process_own_modules` takes the registry of local
`.py` file stems per directory as a parameter (the source builds it from
`os.listdir` in `_get_python_files_by_directory`); the Python `set` of
(module, directory) pairs iterates in an unspecified order, modelled here by
first-occurrence order — every verified statement about the result is a
multiset statement and does not depend on that order.
-/

/-- Model of `DataFrame.drop_duplicates`: keep the first occurrence of every
row.  Each step removes the head and its duplicates, so a fuel of the input's
length is always enough; the structural recursion on the fuel keeps the
function kernel-reducible. -/
def dropDupsFuel {α : Type} [DecidableEq α] : Nat → List α → List α
  | 0, _ => []
  | _ + 1, [] => []
  | fuel + 1, a :: t => a :: dropDupsFuel fuel (t.filter (fun b => b ≠ a))

/-- Model of `DataFrame.drop_duplicates`: keep the first occurrence of every
row. -/
def dropDups {α : Type} [DecidableEq α] (l : List α) : List α :=
  dropDupsFuel l.length l

/-- The `imported_0` column: the first path segment of a row. -/
def imported0 (r : Row) : List Char :=
  r.imported.headD []

/-- Model of `DataAnalyzer._get_clean_data`. -/
def cleanData (df : List Row) : List Row :=
  (dropDups df).filter (fun r => imported0 r ≠ [])

/-- Whether a row imports an own-created module: its first path segment names
a `.py` file stem of the row's directory (`is_own_module` in
`_process_own_modules`). -/
def isOwnB (reg : List Char → List (List Char)) (r : Row) : Bool :=
  decide (imported0 r ∈ reg r.directory)

/-- The set of (own module, directory) pairs of `_process_own_modules`,
in first-occurrence order. -/
def ownPairs (reg : List Char → List (List Char)) (df : List Row) :
    List (List Char × List Char) :=
  dropDups ((df.filter (isOwnB reg)).map (fun r => (imported0 r, r.directory)))

/-- Model of `own_module_usage_count`: how many (cleaned) rows reference
module `m` from
directory `d` as an own module. -/
def ownUsage (reg : List Char → List (List Char)) (df : List Row)
    (m d : List Char) : Nat :=
  ((df.filter (isOwnB reg)).filter
    (fun r => decide (imported0 r = m ∧ r.directory = d))).length

/-- Model of `_own_module_df`: the rows of the module's own file, excluding
its references
of other own modules. -/
def ownModuleDf (reg : List Char → List (List Char)) (df : List Row)
    (m d : List Char) : List Row :=
  df.filter (fun r =>
    decide (r.filename = m ∧ r.directory = d ∧ isOwnB reg r = false))

/-- Model of `DataAnalyzer._process_own_modules` on its input frame: the
non-own rows (`external_df`) followed by, for every (module, directory) pair,
that module's own rows repeated once per referencing occurrence. -/
def processOwnModules (reg : List Char → List (List Char)) (df : List Row) :
    List Row :=
  (df.filter (fun r => !isOwnB reg r)) ++
    (ownPairs reg df).flatMap (fun md =>
      (List.replicate (ownUsage reg df md.1 md.2) (ownModuleDf reg df md.1 md.2)).flatten)

/-- Python `s.replace(pat, '')` for a non-empty pattern: remove every
(leftmost, non-overlapping) occurrence.  Fuel-structured like
`removeAllCommentsFuel`. -/
def removeSubstrAllFuel : Nat → List Char → List Char → List Char
  | 0, _, _ => []
  | _ + 1, _, [] => []
  | fuel + 1, pat, c :: rest =>
    if !pat.isEmpty && pat.isPrefixOf (c :: rest) then
      removeSubstrAllFuel fuel pat ((c :: rest).drop pat.length)
    else
      c :: removeSubstrAllFuel fuel pat rest

/-- Python `s.replace(pat, '')` for a non-empty pattern. -/
def removeSubstrAll (pat s : List Char) : List Char :=
  removeSubstrAllFuel s.length pat s

/-- The registry built by `DataAnalyzer._get_python_files_by_directory` from
one directory listing: stems of the `.py` files (with every occurrence of
`.py` removed, as `f.replace('.py', '')` does). -/
def parentFilesOf (fs : FS) (d : List Char) : List (List Char) :=
  ((fs.listdir d).filter (fun f => (str (".py")).isSuffixOf f)).map
    (fun f => removeSubstrAll (str (".py")) f)

/-- Insert `x` into `l` before the first element `h` with `le x h`; together
with `insSort` this is a stable insertion sort (equal keys keep their input
order). -/
def insertLe {α : Type} (le : α → α → Bool) (x : α) : List α → List α
  | [] => [x]
  | h :: t => if le x h then x :: h :: t else h :: insertLe le x t

/-- Stable insertion sort by `le`. -/
def insSort {α : Type} (le : α → α → Bool) : List α → List α
  | [] => []
  | x :: t => insertLe le x (insSort le t)

/-- The group keys of `df.groupby('imported_0')`: the distinct `imported_0`
values in ascending lexicographic order. -/
def groupKeys (rows : List Row) : List (List Char) :=
  insSort strLeB (dropDups (rows.map imported0))

/-- The contract of the ascending argsort pass inside
`sort_values(ascending=False)`: pandas implements the descending sort by
reversing an ascending `numpy.argsort(kind='quicksort')`, and all numpy
guarantees for that pass is a permutation of the input that is ascending in
the sort key (the count).  The order within a tie group of equal counts is
implementation-defined — introsort is stable only while it stays in its
insertion-sort regime — so the model takes the ascending pass as a parameter
constrained only by this contract. -/
def AscendingByCount
    (srt : List (List Char × Nat) → List (List Char × Nat)) : Prop :=
  ∀ l, (srt l).Perm l ∧ (srt l).Pairwise (fun p q => p.2 ≤ q.2)

/-- Model of
`df.groupby('imported_0').size().sort_values(ascending=False)`, parameterized
by the ascending argsort pass (see `AscendingByCount`): the per-key sizes in
ascending key order, run through the ascending pass and reversed. -/
def freqOfWith (srt : List (List Char × Nat) → List (List Char × Nat))
    (rows : List Row) : List (List Char × Nat) :=
  let counts := (groupKeys rows).map
    (fun m => (m, List.count m (rows.map imported0)))
  (srt counts).reverse

/-- Model of `DataAnalyzer.get_frequencies` on the raw frame rows,
parameterized by the ascending argsort pass: clean, optionally process own
modules, count, sort, and optionally drop the excluded names
(`~count_series.index.isin(self.to_exclude)` keeps the order). -/
def getFrequenciesWith
    (srt : List (List Char × Nat) → List (List Char × Nat))
    (reg : List Char → List (List Char)) (rawDf : List Row)
    (toExclude : List (List Char)) (exclude processOwn : Bool) :
    List (List Char × Nat) :=
  let base := if processOwn then processOwnModules reg (cleanData rawDf)
              else cleanData rawDf
  let s := freqOfWith srt base
  if exclude then s.filter (fun p => decide (p.1 ∉ toExclude)) else s

/-- The ascending pass of a short series: while the per-key count array is
small enough to stay inside introsort's insertion-sort regime, numpy's
`argsort(kind='quicksort')` is exactly a stable insertion sort.  This
instantiation is used to evaluate the model on the concrete collections
below, whose series have at most two keys. -/
def npAscSortShort : List (List Char × Nat) → List (List Char × Nat) :=
  insSort (fun p q : List Char × Nat => decide (p.2 ≤ q.2))

/-- The frequency series of a short-series collection (the instantiation of
`freqOfWith` at `npAscSortShort`). -/
def freqOf (rows : List Row) : List (List Char × Nat) :=
  freqOfWith npAscSortShort rows

/-- Model of `DataAnalyzer.get_frequencies` on a short-series collection (the
instantiation of `getFrequenciesWith` at `npAscSortShort`). -/
def getFrequencies (reg : List Char → List (List Char)) (rawDf : List Row)
    (toExclude : List (List Char)) (exclude processOwn : Bool) :
    List (List Char × Nat) :=
  getFrequenciesWith npAscSortShort reg rawDf toExclude exclude processOwn

/-!
General lemmas about the list operations of the model.
-/

/-- Counting inside a filtered list. -/
theorem count_filter_eq {α : Type} [DecidableEq α] (p : α → Bool) (a : α)
    (l : List α) :
    List.count a (l.filter p) = if p a = true then List.count a l else 0 := by
  by_cases h : p a = true
  · rw [if_pos h, List.count_filter h]
  · rw [if_neg h, List.count_eq_zero]
    intro hmem
    exact h (List.mem_filter.mp hmem).2

/-- Membership is unchanged by `dropDupsFuel` when the fuel suffices. -/
theorem mem_dropDupsFuel {α : Type} [DecidableEq α] (a : α) :
    ∀ (fuel : Nat) (l : List α), l.length ≤ fuel →
      (a ∈ dropDupsFuel fuel l ↔ a ∈ l) := by
  intro fuel
  induction fuel with
  | zero =>
    intro l hl
    rw [List.length_eq_zero.mp (Nat.le_zero.mp hl)]
    simp [dropDupsFuel]
  | succ f ih =>
    intro l hl
    match l with
    | [] => simp [dropDupsFuel]
    | b :: t =>
      have hf : (t.filter (fun x => x ≠ b)).length ≤ f :=
        Nat.le_trans (List.length_filter_le _ t)
          (Nat.le_of_succ_le_succ hl)
      rw [dropDupsFuel]
      by_cases hab : a = b
      · subst hab; simp
      · simp only [List.mem_cons, hab, false_or]
        rw [ih _ hf]
        simp [List.mem_filter, hab]

/-- Membership is unchanged by `dropDups`. -/
theorem mem_dropDups {α : Type} [DecidableEq α] (a : α) (l : List α) :
    a ∈ dropDups l ↔ a ∈ l :=
  mem_dropDupsFuel a l.length l (Nat.le_refl _)

/-- The function `dropDupsFuel` produces a duplicate-free list when the fuel
suffices. -/
theorem nodup_dropDupsFuel {α : Type} [DecidableEq α] :
    ∀ (fuel : Nat) (l : List α), l.length ≤ fuel →
      (dropDupsFuel fuel l).Nodup := by
  intro fuel
  induction fuel with
  | zero =>
    intro l hl
    rw [List.length_eq_zero.mp (Nat.le_zero.mp hl)]
    simp [dropDupsFuel]
  | succ f ih =>
    intro l hl
    match l with
    | [] => simp [dropDupsFuel]
    | b :: t =>
      have hf : (t.filter (fun x => x ≠ b)).length ≤ f :=
        Nat.le_trans (List.length_filter_le _ t)
          (Nat.le_of_succ_le_succ hl)
      rw [dropDupsFuel]
      refine List.nodup_cons.mpr ⟨fun hmem => ?_, ih _ hf⟩
      have := (mem_dropDupsFuel b f _ hf).mp hmem
      simp [List.mem_filter] at this

/-- The function `dropDups` produces a duplicate-free list. -/
theorem nodup_dropDups {α : Type} [DecidableEq α] (l : List α) :
    (dropDups l).Nodup :=
  nodup_dropDupsFuel l.length l (Nat.le_refl _)

/-- Multiplicities after `dropDups`: present elements occur exactly once. -/
theorem count_dropDups {α : Type} [DecidableEq α] (a : α) (l : List α) :
    List.count a (dropDups l) = if a ∈ l then 1 else 0 := by
  by_cases h : a ∈ l
  · rw [if_pos h]
    have h1 : List.count a (dropDups l) ≤ 1 :=
      List.nodup_iff_count_le_one.mp (nodup_dropDups l) a
    have h2 : 0 < List.count a (dropDups l) :=
      List.count_pos_iff.mpr ((mem_dropDups a l).mpr h)
    omega
  · rw [if_neg h, List.count_eq_zero]
    exact fun hmem => h ((mem_dropDups a l).mp hmem)

/-- Counting inside a `flatMap`. -/
theorem count_flatMap {α β : Type} [DecidableEq α] (a : α) (l : List β)
    (g : β → List α) :
    List.count a (l.flatMap g) = (l.map (fun b => List.count a (g b))).sum := by
  induction l with
  | nil => simp
  | cons b t ih => simp [List.flatMap_cons, List.count_append, ih]

/-- Counting inside the flattening of a replicated list. -/
theorem count_flatten_replicate {α : Type} [DecidableEq α] (a : α) (n : Nat)
    (l : List α) :
    List.count a ((List.replicate n l).flatten) = n * List.count a l := by
  induction n with
  | zero => simp
  | succ m ih =>
    rw [List.replicate_succ, List.flatten_cons, List.count_append, ih]
    ring

/-- Summing a map that is zero everywhere except possibly at one element of a
duplicate-free list. -/
theorem sum_map_single {α : Type} [DecidableEq α] {l : List α} (hl : l.Nodup)
    (x₀ : α) (v : Nat) :
    (l.map (fun x => if x = x₀ then v else 0)).sum =
      if x₀ ∈ l then v else 0 := by
  induction l with
  | nil => simp
  | cons a t ih =>
    have hat : a ∉ t := (List.nodup_cons.mp hl).1
    have iht := ih (List.nodup_cons.mp hl).2
    rw [List.map_cons, List.sum_cons, iht]
    by_cases hax : a = x₀
    · subst hax
      simp [hat]
    · have hxa : ¬x₀ = a := fun h => hax h.symm
      simp [hax, hxa]

/-- The function `dropDupsFuel` does not depend on the fuel once it covers the
input length. -/
theorem dropDupsFuel_fuel_irrel {α : Type} [DecidableEq α] :
    ∀ (f f' : Nat) (l : List α), l.length ≤ f → l.length ≤ f' →
      dropDupsFuel f l = dropDupsFuel f' l := by
  intro f
  induction f with
  | zero =>
    intro f' l hl _
    rw [List.length_eq_zero.mp (Nat.le_zero.mp hl)]
    cases f' <;> simp [dropDupsFuel]
  | succ g ih =>
    intro f' l hl hl'
    match l with
    | [] => cases f' <;> simp [dropDupsFuel]
    | b :: t =>
      match f' with
      | 0 => exact absurd hl' (by simp)
      | g' + 1 =>
        have hf : (t.filter (fun x => x ≠ b)).length ≤ g :=
          Nat.le_trans (List.length_filter_le _ t) (Nat.le_of_succ_le_succ hl)
        have hf' : (t.filter (fun x => x ≠ b)).length ≤ g' :=
          Nat.le_trans (List.length_filter_le _ t) (Nat.le_of_succ_le_succ hl')
        rw [dropDupsFuel, dropDupsFuel, ih g' _ hf hf']

/-- Filtering commutes with duplicate removal (fuel version). -/
theorem filter_dropDupsFuel {α : Type} [DecidableEq α] (p : α → Bool) :
    ∀ (fuel : Nat) (l : List α), l.length ≤ fuel →
      (dropDupsFuel fuel l).filter p = dropDupsFuel fuel (l.filter p) := by
  intro fuel
  induction fuel with
  | zero =>
    intro l hl
    rw [List.length_eq_zero.mp (Nat.le_zero.mp hl)]
    simp [dropDupsFuel]
  | succ f ih =>
    intro l hl
    match l with
    | [] => simp [dropDupsFuel]
    | b :: t =>
      have hlen : (t.filter (fun x => x ≠ b)).length ≤ f :=
        Nat.le_trans (List.length_filter_le _ t) (Nat.le_of_succ_le_succ hl)
      by_cases hpb : p b = true
      · have hstep : List.filter p (dropDupsFuel (f + 1) (b :: t)) =
            b :: List.filter p (dropDupsFuel f
              (t.filter (fun x => x ≠ b))) := by
          rw [dropDupsFuel, List.filter_cons_of_pos hpb]
        have hstep2 : dropDupsFuel (f + 1) (List.filter p (b :: t)) =
            b :: dropDupsFuel f ((t.filter p).filter (fun x => x ≠ b)) := by
          rw [List.filter_cons_of_pos hpb, dropDupsFuel]
        have hff : (t.filter (fun x => x ≠ b)).filter p =
            (t.filter p).filter (fun x => x ≠ b) := by
          rw [List.filter_filter, List.filter_filter]
          exact List.filter_congr (fun x _ => Bool.and_comm _ _)
        rw [hstep, hstep2, ih _ hlen, hff]
      · have hstep : List.filter p (dropDupsFuel (f + 1) (b :: t)) =
            List.filter p (dropDupsFuel f (t.filter (fun x => x ≠ b))) := by
          rw [dropDupsFuel, List.filter_cons_of_neg hpb]
        have hstep2 : dropDupsFuel (f + 1) (List.filter p (b :: t)) =
            dropDupsFuel (f + 1) (List.filter p t) := by
          rw [List.filter_cons_of_neg hpb]
        have heq : (t.filter (fun x => x ≠ b)).filter p = t.filter p := by
          rw [List.filter_filter]
          apply List.filter_congr
          intro x _
          by_cases hpx : p x = true
          · have hxb : decide (x ≠ b) = true := by
              simp only [decide_eq_true_eq]
              intro hxe
              rw [hxe] at hpx
              exact hpb hpx
            rw [hxb, hpx]
            rfl
          · simp only [Bool.not_eq_true] at hpx
            simp [hpx]
        rw [hstep, hstep2, ih _ hlen, heq]
        exact dropDupsFuel_fuel_irrel f (f + 1) _
          (Nat.le_trans (List.length_filter_le _ t)
            (Nat.le_of_succ_le_succ hl))
          (Nat.le_trans (List.length_filter_le _ t)
            (Nat.le_succ_of_le (Nat.le_of_succ_le_succ hl)))

/-- Filtering commutes with duplicate removal. -/
theorem filter_dropDups {α : Type} [DecidableEq α] (p : α → Bool) (l : List α) :
    (dropDups l).filter p = dropDups (l.filter p) := by
  rw [dropDups, dropDups, filter_dropDupsFuel p l.length l (Nat.le_refl _)]
  exact dropDupsFuel_fuel_irrel _ _ _ (List.length_filter_le _ l) (Nat.le_refl _)

/-- Insertion via `insertLe` only rearranges its input. -/
theorem insertLe_perm {α : Type} (le : α → α → Bool) (x : α) :
    ∀ l : List α, (insertLe le x l).Perm (x :: l) := by
  intro l
  induction l with
  | nil => exact List.Perm.refl _
  | cons h t ih =>
    rw [insertLe]
    by_cases hle : le x h = true
    · rw [if_pos hle]
    · rw [if_neg hle]
      exact (ih.cons h).trans (List.Perm.swap x h t)

/-- Sorting via `insSort` only rearranges its input. -/
theorem insSort_perm {α : Type} (le : α → α → Bool) :
    ∀ l : List α, (insSort le l).Perm l := by
  intro l
  induction l with
  | nil => exact List.Perm.refl _
  | cons x t ih =>
    rw [insSort]
    exact (insertLe_perm le x _).trans (ih.cons x)

/-!
Claim C1: the local-module resolver.
-/

/-- Membership in `ownPairs` is equivalent to a positive usage count. -/
theorem mem_ownPairs_iff (reg : List Char → List (List Char)) (df : List Row)
    (m d : List Char) :
    (m, d) ∈ ownPairs reg df ↔ 0 < ownUsage reg df m d := by
  rw [ownPairs, mem_dropDups, ownUsage]
  constructor
  · intro hmem
    rcases List.mem_map.mp hmem with ⟨r, hr, hrp⟩
    have h1 : imported0 r = m := congrArg Prod.fst hrp
    have h2 : r.directory = d := congrArg Prod.snd hrp
    have : r ∈ (df.filter (isOwnB reg)).filter
        (fun r => decide (imported0 r = m ∧ r.directory = d)) := by
      rw [List.mem_filter]
      exact ⟨hr, by simp [h1, h2]⟩
    exact List.length_pos.mpr (List.ne_nil_of_mem this)
  · intro hpos
    have hne : ((df.filter (isOwnB reg)).filter
        (fun r => decide (imported0 r = m ∧ r.directory = d))) ≠ [] := by
      intro h
      rw [h] at hpos
      exact Nat.lt_irrefl 0 hpos
    rcases List.exists_mem_of_ne_nil _ hne with ⟨r, hr⟩
    rw [List.mem_filter] at hr
    have hcond := of_decide_eq_true hr.2
    exact List.mem_map.mpr ⟨r, hr.1, by rw [hcond.1, hcond.2]⟩

/-- C1 (amended): in the resolver output, rows that reference a local module
have multiplicity zero, and every other row keeps its input multiplicity
multiplied by `1 + N`, where `N` is the number of rows referencing the row's
source file as a local module of its directory: the resolver folds the
module's own non-local rows into the output once via `external_df` and then
`N` further times via the duplicated `internal_df`, so a module referenced
`N` times contributes `N + 1` copies of each of its non-local import rows,
not `N`.  Rows whose first segment names a module that is local elsewhere,
but not in their own directory, remain in the output. -/
theorem C1_count (reg : List Char → List (List Char)) (df : List Row) (r : Row) :
    List.count r (processOwnModules reg df) =
      if imported0 r ∈ reg r.directory then 0
      else List.count r df * (1 + ownUsage reg df r.filename r.directory) := by
  rw [processOwnModules, List.count_append]
  by_cases hown : imported0 r ∈ reg r.directory
  · rw [if_pos hown]
    have hb : isOwnB reg r = true := decide_eq_true hown
    have hE : List.count r (df.filter (fun x => !isOwnB reg x)) = 0 := by
      rw [count_filter_eq]
      simp [hb]
    have hI : List.count r ((ownPairs reg df).flatMap (fun md =>
        (List.replicate (ownUsage reg df md.1 md.2)
          (ownModuleDf reg df md.1 md.2)).flatten)) = 0 := by
      rw [count_flatMap]
      apply List.sum_eq_zero
      intro x hx
      rcases List.mem_map.mp hx with ⟨md, _, hmdx⟩
      subst hmdx
      rw [count_flatten_replicate, ownModuleDf, count_filter_eq]
      simp [hb]
    rw [hE, hI]
  · rw [if_neg hown]
    have hb : isOwnB reg r = false := by
      rw [isOwnB, decide_eq_false_iff_not]
      exact hown
    have hE : List.count r (df.filter (fun x => !isOwnB reg x)) =
        List.count r df := by
      rw [count_filter_eq]
      simp [hb]
    rw [hE, count_flatMap]
    have hcongr : (ownPairs reg df).map (fun md => List.count r
        ((List.replicate (ownUsage reg df md.1 md.2)
          (ownModuleDf reg df md.1 md.2)).flatten)) =
        (ownPairs reg df).map (fun md =>
          if md = (r.filename, r.directory)
          then ownUsage reg df r.filename r.directory * List.count r df
          else 0) := by
      apply List.map_congr_left
      intro md _
      rw [count_flatten_replicate, ownModuleDf, count_filter_eq]
      by_cases hmatch : md = (r.filename, r.directory)
      · subst hmatch
        simp [hb]
      · rw [if_neg hmatch]
        have hcond : ¬(r.filename = md.1 ∧ r.directory = md.2 ∧
            isOwnB reg r = false) := by
          rintro ⟨h1, h2, _⟩
          exact hmatch (Prod.ext h1.symm h2.symm)
        simp [hcond]
    have hnd : (ownPairs reg df).Nodup := nodup_dropDups _
    rw [hcongr, sum_map_single hnd _ _]
    by_cases hin : (r.filename, r.directory) ∈ ownPairs reg df
    · rw [if_pos hin]
      ring
    · rw [if_neg hin]
      have hz : ownUsage reg df r.filename r.directory = 0 := by
        by_contra hne
        exact hin ((mem_ownPairs_iff reg df _ _).mpr (Nat.pos_of_ne_zero hne))
      rw [hz]
      ring

/-- A row of `main.py` importing the local module `util` (first referencing
statement). -/
def rowMainUtil : Row :=
  { imported := [str ("util")], aliasCol := [], original := str ("import util")
    path := str ("/d/main.py"), file := str ("main.py")
    filename := str ("main"), extension := str ("py"), directory := str ("/d") }

/-- A row of `main.py` importing the local module `util` (second, distinct
referencing statement, so deduplication keeps both). -/
def rowMainUtilF : Row :=
  { imported := [str ("util"), str ("f")], aliasCol := []
    original := str ("from util import f"), path := str ("/d/main.py")
    file := str ("main.py"), filename := str ("main")
    extension := str ("py"), directory := str ("/d") }

/-- The row of `util.py` importing the external `numpy`. -/
def rowUtilNumpy : Row :=
  { imported := [str ("numpy")], aliasCol := []
    original := str ("import numpy"), path := str ("/d/util.py")
    file := str ("util.py"), filename := str ("util")
    extension := str ("py"), directory := str ("/d") }

/-- A row of a second directory importing a module also called `util`, which
is not a local file there. -/
def rowOtherUtil : Row :=
  { imported := [str ("util")], aliasCol := [], original := str ("import util")
    path := str ("/e/other.py"), file := str ("other.py")
    filename := str ("other"), extension := str ("py"), directory := str ("/e") }

/-- The registry of local `.py` stems for the two directories above. -/
def regLocal : List Char → List (List Char) :=
  fun d => if d = str ("/d") then [str ("main"), str ("util")]
           else if d = str ("/e") then [str ("other")] else []

/-- The record collection of the C1 scenario. -/
def rowsLocal : List Row :=
  [rowMainUtil, rowMainUtilF, rowUtilNumpy, rowOtherUtil]

/-- C1 counterexample: in a collection where local module `util` of `/d` is
referenced `N = 2` times and `util.py` has one non-local import row (`numpy`),
the resolver output contains three copies of that row, not the two the claim
asserts, and it still contains a record whose first path segment is `util`
(the reference from `/e`, where `util` is not local), not zero such records. -/
theorem C1_counterexample :
    List.count rowUtilNumpy (processOwnModules regLocal rowsLocal) = 3 ∧
    ownUsage regLocal rowsLocal (str ("util")) (str ("/d")) = 2 ∧
    rowOtherUtil ∈ processOwnModules regLocal rowsLocal ∧
    imported0 rowOtherUtil = str ("util") := by
  decide

/-!
Claim C10: the cleaning pass and its consequences.
-/

/-- Every row of the resolver output comes from its input frame. -/
theorem mem_processOwnModules {reg : List Char → List (List Char)}
    {df : List Row} {r : Row} (h : r ∈ processOwnModules reg df) : r ∈ df := by
  rw [processOwnModules] at h
  rcases List.mem_append.mp h with hext | hint
  · exact (List.mem_filter.mp hext).1
  · rcases List.mem_flatMap.mp hint with ⟨md, _, hr⟩
    rcases List.mem_flatten.mp hr with ⟨l, hl, hrl⟩
    rcases List.mem_replicate.mp hl with ⟨_, hleq⟩
    subst hleq
    exact (List.mem_filter.mp hrl).1

/-- Every module name in the frequency series is the `imported_0` value of
some row of the counted frame. -/
theorem mem_freqOf {rows : List Row} {m : List Char} {n : Nat}
    (h : (m, n) ∈ freqOf rows) : m ∈ rows.map imported0 := by
  simp only [freqOf, freqOfWith, npAscSortShort] at h
  rw [List.mem_reverse] at h
  have h2 := (insSort_perm _ _).mem_iff.mp h
  rcases List.mem_map.mp h2 with ⟨k, hk, hkeq⟩
  have : k = m := congrArg Prod.fst hkeq
  subst this
  have h3 := (insSort_perm strLeB _).mem_iff.mp hk
  exact (mem_dropDups k _).mp h3

/-- C10: the cleaned frame is the raw frame with exact duplicates removed and
relative-import rows (empty first segment) removed, in either order; each
surviving row occurs exactly once, so repeated identical statements count once;
and no frequency output, with or without own-module processing or exclusions,
contains the empty module name of a relative import. -/
theorem C10_clean :
    (∀ df : List Row,
      cleanData df = dropDups (df.filter (fun r => imported0 r ≠ []))) ∧
    (∀ (df : List Row) (r : Row),
      List.count r (cleanData df) =
        if r ∈ df ∧ imported0 r ≠ [] then 1 else 0) ∧
    (∀ (reg : List Char → List (List Char)) (rawDf : List Row)
      (toExclude : List (List Char)) (exclude processOwn : Bool) (n : Nat),
      ([], n) ∉ getFrequencies reg rawDf toExclude exclude processOwn) := by
  refine ⟨fun df => filter_dropDups _ df, fun df r => ?_, ?_⟩
  · rw [cleanData, count_filter_eq, count_dropDups]
    by_cases hmem : r ∈ df
    · by_cases hseg : imported0 r = []
      · simp [hmem, hseg]
      · simp [hmem, hseg]
    · simp [hmem]
  · intro reg rawDf toExclude exclude processOwn n hmem
    simp only [getFrequencies, getFrequenciesWith] at hmem
    have hbase : ([], n) ∈ freqOf (if processOwn then
        processOwnModules reg (cleanData rawDf) else cleanData rawDf) := by
      by_cases hex : exclude
      · simp only [hex, if_true] at hmem
        exact (List.mem_filter.mp hmem).1
      · simp only [hex, if_false] at hmem
        exact hmem
    have hseg := mem_freqOf hbase
    rcases List.mem_map.mp hseg with ⟨r, hr, hr0⟩
    have hrclean : r ∈ cleanData rawDf := by
      by_cases hpo : processOwn
      · simp only [hpo, if_true] at hr
        exact mem_processOwnModules hr
      · simp only [hpo, if_false] at hr
        exact hr
    have : imported0 r ≠ [] := by
      have := (List.mem_filter.mp hrclean).2
      simpa using this
    exact this hr0

/-!
Claims C2 and C3: the error behavior of `Data` on the two boundary scenarios.
-/

/-- A filesystem with a single readable `.py` file `/r/a.py` whose text
`x = 1` contains no import statement. -/
def fsSingle : FS :=
  { pathExists := fun p => p = str ("/r/a.py")
    pathIsFile := fun p => p = str ("/r/a.py")
    walkAll := fun _ => []
    content := fun p => if p = str ("/r/a.py") then some (str ("x = 1")) else none
    nbCode := fun _ => none
    listdir := fun _ => [] }

/-- C2: on an existing root path that is a single `.py` file with no imports,
`Data.__init__` succeeds, the file scanner finds no statements, `_create_df`
returns `None` — and reading the `df` property then evaluates `None.copy()`,
raising `AttributeError` instead of returning an empty collection. -/
theorem C2_empty_scan_raises :
    dataInit fsSingle (str ("/r/a.py")) =
      Except.ok { path := str ("/r/a.py"),
                  directory := { existsAttr := true,
                                 filepaths := [str ("/r/a.py")] } } ∧
    fileStatements (getCode fsSingle (str ("/r/a.py"))) = [] ∧
    dataDf fsSingle (str ("/r/a.py")) = Except.error PyErr.attributeError := by
  exact ⟨rfl, rfl, rfl⟩

/-- C3: a missing root path raises `ValueError` (the spec's `PathNotFound`)
immediately from `Data.__init__`, not an empty result — but it is not the only
hard failure: on the existing, import-free path of C2 the `df` access raises
`AttributeError`, a second error that propagates to the caller. -/
theorem C3_path_errors :
    dataInit fsSingle (str ("/missing")) = Except.error PyErr.valueError ∧
    dataDf fsSingle (str ("/r/a.py")) = Except.error PyErr.attributeError ∧
    PyErr.attributeError ≠ PyErr.valueError := by
  exact ⟨rfl, rfl, by decide⟩

/-!
Claim C4: the order of the frequency series.
-/

/-- Inserting by count before the first greater-or-equal count keeps a
count-ascending list count-ascending. -/
theorem insertLe_count_le {x : List Char × Nat} {l : List (List Char × Nat)}
    (hl : l.Pairwise (fun p q => p.2 ≤ q.2)) :
    (insertLe (fun p q : List Char × Nat => decide (p.2 ≤ q.2)) x l).Pairwise
      (fun p q => p.2 ≤ q.2) := by
  induction l with
  | nil => simp [insertLe]
  | cons h t ih =>
    rw [insertLe]
    by_cases hle : decide (x.2 ≤ h.2) = true
    · rw [if_pos hle]
      have hxh : x.2 ≤ h.2 := of_decide_eq_true hle
      refine List.pairwise_cons.mpr ⟨?_, hl⟩
      intro y hy
      rcases List.mem_cons.mp hy with rfl | hyt
      · exact hxh
      · exact Nat.le_trans hxh ((List.pairwise_cons.mp hl).1 y hyt)
    · rw [if_neg hle]
      have hhx : h.2 ≤ x.2 := by
        have hnle : ¬x.2 ≤ h.2 := fun hc => hle (decide_eq_true hc)
        omega
      refine List.pairwise_cons.mpr ⟨?_, ih (List.pairwise_cons.mp hl).2⟩
      intro y hy
      have hmem := (insertLe_perm _ x t).mem_iff.mp hy
      rcases List.mem_cons.mp hmem with rfl | hyt
      · exact hhx
      · exact (List.pairwise_cons.mp hl).1 y hyt

/-- Insertion sort by count produces a count-ascending list. -/
theorem insSort_count_le :
    ∀ l : List (List Char × Nat),
      (insSort (fun p q : List Char × Nat => decide (p.2 ≤ q.2)) l).Pairwise
        (fun p q => p.2 ≤ q.2) := by
  intro l
  induction l with
  | nil => simp [insSort]
  | cons x t ih =>
    rw [insSort]
    exact insertLe_count_le ih

/-- The short-series instantiation satisfies the ascending-argsort
contract. -/
theorem npAscSortShort_spec : AscendingByCount npAscSortShort := by
  intro l
  exact ⟨insSort_perm _ l, insSort_count_le l⟩

/-- C4 (amended): for every ascending argsort pass satisfying the contract
numpy provides (`AscendingByCount`: a permutation of the per-key counts,
ascending by count, with implementation-defined order inside tie groups), the
frequency series the analyzer returns is sorted by count in descending order.
The tie order is the reverse of that pass's order — not the first-encountered
module name (see the counterexample) — and the output is deterministic for a
fixed numpy implementation, being a pure function of the collection and the
pass. -/
theorem C4_sorted :
    ∀ (srt : List (List Char × Nat) → List (List Char × Nat)),
      AscendingByCount srt →
      ∀ (reg : List Char → List (List Char)) (rawDf : List Row)
        (toExclude : List (List Char)) (exclude processOwn : Bool),
        (getFrequenciesWith srt reg rawDf toExclude
          exclude processOwn).Pairwise (fun p q => q.2 ≤ p.2) := by
  intro srt hsrt reg rawDf toExclude exclude processOwn
  rw [getFrequenciesWith]
  have hfreq : ∀ rows : List Row, (freqOfWith srt rows).Pairwise
      (fun p q => q.2 ≤ p.2) := by
    intro rows
    rw [freqOfWith]
    apply List.pairwise_reverse.mpr
    exact (hsrt _).2
  by_cases hex : exclude
  · simp only [hex, if_true]
    exact (hfreq _).filter _
  · simp only [hex, if_false]
    exact hfreq _

/-- A row importing module `a`, encountered first in the collection. -/
def rowFreqA : Row :=
  { imported := [str ("a")], aliasCol := [], original := str ("import a")
    path := str ("/p/m.py"), file := str ("m.py"), filename := str ("m")
    extension := str ("py"), directory := str ("/p") }

/-- A row importing module `b`, encountered second in the collection. -/
def rowFreqB : Row :=
  { imported := [str ("b")], aliasCol := [], original := str ("import b")
    path := str ("/p/m.py"), file := str ("m.py"), filename := str ("m")
    extension := str ("py"), directory := str ("/p") }

/-- C4 counterexample: with `a` encountered before `b` and both counted once,
first-encountered tie-breaking would return `a` before `b`, but the code
returns `[(b, 1), (a, 1)]`: the tie is broken by reverse lexicographic name
order, not by encounter order. -/
theorem C4_counterexample :
    getFrequencies (fun _ => []) [rowFreqA, rowFreqB] [] true true =
      [(str ("b"), 1), (str ("a"), 1)] ∧
    [(str ("b"), 1), (str ("a"), 1)] ≠ [(str ("a"), 1), (str ("b"), 1)] := by
  exact ⟨by decide, by decide⟩

/-- Witness for C4: the descending-count order at the counterexample's
concrete collection, with the ascending pass instantiated by the short-series
insertion sort. -/
theorem C4_sorted_witness :
    (getFrequenciesWith npAscSortShort (fun _ => []) [rowFreqA, rowFreqB] []
      true true).Pairwise (fun p q => q.2 ≤ p.2) :=
  C4_sorted npAscSortShort npAscSortShort_spec (fun _ => [])
    [rowFreqA, rowFreqB] [] true true

/-!
Claim C5: alias stripping.
-/

/-- Word characters are not whitespace. -/
theorem word_not_space {c : Char} (h : wordCharB c = true) :
    isPySpace c = false := by
  by_contra hs
  rw [Bool.not_eq_false, isPySpace] at hs
  rcases Bool.or_eq_true_iff.mp hs with hs' | h6 <;>
    [skip; (rw [decide_eq_true_eq] at h6; subst h6; simp [wordCharB] at h)]
  rcases Bool.or_eq_true_iff.mp hs' with hs'' | h5 <;>
    [skip; (rw [decide_eq_true_eq] at h5; subst h5; simp [wordCharB] at h)]
  rcases Bool.or_eq_true_iff.mp hs'' with hs''' | h4 <;>
    [skip; (rw [decide_eq_true_eq] at h4; subst h4; simp [wordCharB] at h)]
  rcases Bool.or_eq_true_iff.mp hs''' with hs'''' | h3 <;>
    [skip; (rw [decide_eq_true_eq] at h3; subst h3; simp [wordCharB] at h)]
  rcases Bool.or_eq_true_iff.mp hs'''' with h1 | h2
  · rw [decide_eq_true_eq] at h1; subst h1; simp [wordCharB] at h
  · rw [decide_eq_true_eq] at h2; subst h2; simp [wordCharB] at h

/-- Dropping whitespace from an all-word string does nothing. -/
theorem dropWhile_word {l : List Char} (h : ∀ c ∈ l, wordCharB c = true) :
    l.dropWhile isPySpace = l := by
  cases l with
  | nil => rfl
  | cons c t =>
    rw [List.dropWhile_cons, word_not_space (h c (List.mem_cons_self _ _))]
    simp

/-- Stripping an all-word string followed by one space recovers it. -/
theorem pyStrip_word_append_space {n : List Char}
    (hn : ∀ c ∈ n, wordCharB c = true) : pyStrip (n ++ [' ']) = n := by
  cases n with
  | nil => rfl
  | cons c t =>
    rw [pyStrip]
    have h1 : ((c :: t) ++ [' ']).dropWhile isPySpace = (c :: t) ++ [' '] := by
      rw [List.cons_append, List.dropWhile_cons,
        word_not_space (hn c (List.mem_cons_self _ _))]
      simp
    rw [h1, List.reverse_append]
    have h2 : List.dropWhile isPySpace ([' '].reverse ++ (c :: t).reverse) =
        (c :: t).reverse := by
      have he : [' '].reverse ++ (c :: t).reverse = ' ' :: (c :: t).reverse :=
        rfl
      rw [he, List.dropWhile_cons]
      simp only [show isPySpace ' ' = true from rfl, if_true]
      exact dropWhile_word (fun d hd => hn d (List.mem_reverse.mp hd))
    rw [h2, List.reverse_reverse]

/-- Stripping one space followed by an all-word string recovers the string. -/
theorem pyStrip_space_cons_word {x : List Char}
    (hx : ∀ c ∈ x, wordCharB c = true) : pyStrip (' ' :: x) = x := by
  rw [pyStrip, List.dropWhile_cons]
  simp only [show isPySpace ' ' = true from rfl, if_true]
  rw [dropWhile_word hx, dropWhile_word (fun c hc => hx c (List.mem_reverse.mp hc)),
    List.reverse_reverse]

/-- The scan of the alias pattern over `n ++ " as " ++ x`, for an all-word `n`
that is not itself the word `as` (unless shielded by a word character before
it), fires exactly at the `as` after `n`. -/
theorem aliasIdxAux_word (x : List Char) :
    ∀ (n : List Char) (prev : Option Char),
      (∀ c ∈ n, wordCharB c = true) →
      (boundaryOkB prev = true → n ≠ str ("as")) →
      aliasIdxAux prev (n ++ ' ' :: 'a' :: 's' :: ' ' :: x) =
        some (n.length + 1) := by
  intro n
  induction n with
  | nil =>
    intro prev _ _
    rfl
  | cons c n' ih =>
    intro prev hw hnas
    rw [List.cons_append, aliasIdxAux]
    have hhere : (decide (c = 'a') && boundaryOkB prev &&
        asSpaceTest (n' ++ ' ' :: 'a' :: 's' :: ' ' :: x)) = false := by
      by_cases hca : c = 'a'
      · subst hca
        match n', hw with
        | [], _ =>
          rw [List.nil_append]
          simp [asSpaceTest]
        | [d], hw =>
          by_cases hds : d = 's'
          · subst hds
            by_cases hb : boundaryOkB prev = true
            · exact absurd rfl (hnas hb)
            · rw [Bool.not_eq_true] at hb
              rw [hb]
              simp
          · have : asSpaceTest ([d] ++ ' ' :: 'a' :: 's' :: ' ' :: x) =
                false := by
              simp [asSpaceTest, hds]
            rw [this]
            simp
        | d :: e :: n'', hw =>
          have hew : wordCharB e = true :=
            hw e (List.mem_cons_of_mem ('a')
              (List.mem_cons_of_mem d (List.mem_cons_self e n'')))
          have hes : ¬(e = ' ') := by
            intro he
            subst he
            simp [wordCharB] at hew
          have : asSpaceTest ((d :: e :: n'') ++
              ' ' :: 'a' :: 's' :: ' ' :: x) = false := by
            simp [asSpaceTest, hes]
          rw [this]
          simp
      · have hcf : decide (c = 'a') = false := by
          rw [decide_eq_false_iff_not]
          exact hca
        rw [hcf]
        simp
    rw [hhere]
    simp only [Bool.false_eq_true, if_false]
    have hcw : wordCharB c = true := hw c (List.mem_cons_self _ _)
    have hrec := ih (some c) (fun d hd => hw d (List.mem_cons_of_mem _ hd))
      (fun hb => by
        rw [boundaryOkB, hcw] at hb
        simp at hb)
    rw [hrec]
    simp [List.length_cons]

/-- Alias extraction on a well-formed aliased target `n as x` with identifier
words `n` and `x`: the alias is `x` and the remaining statement is `n`. -/
theorem getAlias_word {n x : List Char} (hn : ∀ c ∈ n, wordCharB c = true)
    (hx : ∀ c ∈ x, wordCharB c = true) (hnas : n ≠ str ("as")) :
    getAlias (n ++ str (" as ") ++ x) = (x, n) := by
  have hs : n ++ str (" as ") ++ x = n ++ ' ' :: 'a' :: 's' :: ' ' :: x := by
    rw [show str (" as ") = [' ', 'a', 's', ' '] from by decide]
    simp
  rw [hs]
  have hidx : aliasIdx? (n ++ ' ' :: 'a' :: 's' :: ' ' :: x) =
      some (n.length + 1) :=
    aliasIdxAux_word x n none hn (fun _ => hnas)
  rw [getAlias, hidx]
  have htake : (n ++ ' ' :: 'a' :: 's' :: ' ' :: x).take (n.length + 1) =
      n ++ [' '] := by
    have hshape : n ++ ' ' :: 'a' :: 's' :: ' ' :: x =
        (n ++ [' ']) ++ ('a' :: 's' :: ' ' :: x) := by
      simp
    rw [hshape, show n.length + 1 = (n ++ [' ']).length by simp]
    exact List.take_left _ _
  have hdrop : (n ++ ' ' :: 'a' :: 's' :: ' ' :: x).drop (n.length + 1 + 2) =
      ' ' :: x := by
    have hshape : n ++ ' ' :: 'a' :: 's' :: ' ' :: x =
        (n ++ [' ', 'a', 's']) ++ (' ' :: x) := by
      simp
    rw [hshape, show n.length + 1 + 2 = (n ++ [' ', 'a', 's']).length by simp]
    exact List.drop_left _ _
  dsimp only
  rw [htake, hdrop, pyStrip_word_append_space hn, pyStrip_space_cons_word hx]

/-- C5: when an import target carries an `as <alias>` suffix (identifier
followed by `as` followed by the alias), the alias is stripped from the final
path segment and recorded separately, so the recorded segment is the
literally imported name, never the alias; `from a import b as x` yields
the path `[a, b]` with alias `x`. -/
theorem C5_alias :
    (∀ n x : List Char, (∀ c ∈ n, wordCharB c = true) →
      (∀ c ∈ x, wordCharB c = true) → n ≠ str ("as") →
      getAlias (n ++ str (" as ") ++ x) = (x, n)) ∧
    lineParse (str ("from a import b as x")) =
      ([[str ("a"), str ("b")]], [str ("x")]) := by
  exact ⟨fun n x hn hx hnas => getAlias_word hn hx hnas, by decide⟩

/-- Witness for C5 at a concrete aliased target. -/
theorem C5_alias_witness :
    getAlias (str ("b") ++ str (" as ") ++ str ("y")) =
      (str ("y"), str ("b")) :=
  C5_alias.1 (str ("b")) (str ("y")) (by decide) (by decide) (by decide)

/-!
Claim C6: one record per comma-separated target, sharing the from-prefix.
-/

/-- Splitting with `pySplit` always produces at least one field. -/
theorem pySplit_ne_nil (sep : Char) : ∀ l : List Char, pySplit sep l ≠ [] := by
  intro l
  induction l with
  | nil => simp [pySplit]
  | cons c rest ih =>
    rw [pySplit]
    cases h : pySplit sep rest with
    | nil => exact absurd h ih
    | cons hd tl =>
      by_cases hc : c = sep <;> simp [hc]

/-- C6 (amended): a line with `k` comma-separated import targets yields
exactly `k` records; every record's path extends the from-clause segments; and
each record's path is the from-segments concatenated with the target's
segments, with any `as <alias>` suffix stripped from the final segment (the
claim's formula without the alias stripping fails on aliased targets, see the
counterexample).  In particular `from a.b import c, d` yields exactly two
records sharing the prefix `[a, b]`. -/
theorem C6_records :
    (∀ line : List Char, (lineImports line).length =
      (pySplit ',' (getFromImport line).2).length) ∧
    (∀ (line : List Char) (p : List (List Char)), p ∈ lineImports line →
      ∃ t, p = fromSegs line ++ t) ∧
    (∀ line : List Char, lineImports line = (lineTargets line).map (fun t =>
      (fromSegs line ++ pySplit '.' t).dropLast ++
        [(getAlias ((fromSegs line ++ pySplit '.' t).getLastD [])).2])) ∧
    lineImports (str ("from a.b import c, d")) =
      [[str ("a"), str ("b"), str ("c")], [str ("a"), str ("b"), str ("d")]] := by
  have h3 : ∀ line : List Char, lineImports line = (lineTargets line).map
      (fun t => (fromSegs line ++ pySplit '.' t).dropLast ++
        [(getAlias ((fromSegs line ++ pySplit '.' t).getLastD [])).2]) := by
    intro line
    simp only [lineImports, lineParse, getAliasList, getImports, lineTargets,
      fromSegs, stripAliasSeg, List.map_map]
    rfl
  refine ⟨?_, ?_, h3, by decide⟩
  · intro line
    simp only [lineImports, lineParse, getAliasList, getImports,
      List.map_map, List.length_map]
  · intro line p hp
    rw [h3] at hp
    rcases List.mem_map.mp hp with ⟨t, _, hpt⟩
    rcases List.exists_cons_of_ne_nil (pySplit_ne_nil '.' t) with ⟨b, l₂, hbt⟩
    rw [hbt, List.dropLast_append_cons, List.append_assoc] at hpt
    exact ⟨_, hpt.symm⟩

/-- Witness for C6: the from-prefix property at the concrete two-target
line. -/
theorem C6_records_witness :
    ∃ t, [str ("a"), str ("b"), str ("c")] =
      fromSegs (str ("from a.b import c, d")) ++ t :=
  C6_records.2.1 (str ("from a.b import c, d")) _ (by decide)

/-- C6 counterexample: for `from a import b as x` the single target is
`b as x`, and the claim's path formula (from-segments concatenated with the
target split on `.`) predicts the final segment `b as x`; the parser instead
strips the alias and records `[a, b]`. -/
theorem C6_counterexample :
    lineImports (str ("from a import b as x")) = [[str ("a"), str ("b")]] ∧
    [[str ("a"), str ("b")]] ≠ [[str ("a"), str ("b as x")]] := by
  exact ⟨by decide, by decide⟩

/-!
Claim C7: graceful degradation of the statement parser.
-/

/-- The head of a `dropWhile` result falsifies the predicate. -/
theorem dropWhile_head_false {p : Char → Bool} :
    ∀ {l : List Char} {c : Char}, (l.dropWhile p).head? = some c →
      p c = false := by
  intro l
  induction l with
  | nil => intro c h; simp at h
  | cons d t ih =>
    intro c h
    rw [List.dropWhile_cons] at h
    by_cases hd : p d = true
    · rw [if_pos hd] at h
      exact ih h
    · rw [if_neg hd] at h
      rw [Bool.not_eq_true] at hd
      have : d = c := by
        simpa using h
      rw [← this]
      exact hd

/-- A string whose first and last characters are not whitespace strips to
itself. -/
theorem pyStrip_eq_self {l : List Char}
    (hh : ∀ c, l.head? = some c → isPySpace c = false)
    (hl : ∀ c, l.getLast? = some c → isPySpace c = false) : pyStrip l = l := by
  rw [pyStrip]
  have h1 : l.dropWhile isPySpace = l := by
    cases l with
    | nil => rfl
    | cons c t =>
      rw [List.dropWhile_cons, hh c rfl]
      simp
  rw [h1]
  have h2 : l.reverse.dropWhile isPySpace = l.reverse := by
    cases hr : l.reverse with
    | nil => rfl
    | cons c t =>
      have hc : l.getLast? = some c := by
        rw [← List.head?_reverse, hr]
        rfl
      rw [List.dropWhile_cons, hl c hc]
      simp
  rw [h2, List.reverse_reverse]

/-- A nonempty `dropWhile` result keeps the original last element. -/
theorem getLast?_dropWhile {p : Char → Bool} :
    ∀ {l : List Char}, l.dropWhile p ≠ [] →
      (l.dropWhile p).getLast? = l.getLast? := by
  intro l
  induction l with
  | nil => intro h; simp at h
  | cons d t ih =>
    intro h
    rw [List.dropWhile_cons] at h ⊢
    by_cases hd : p d = true
    · rw [if_pos hd] at h ⊢
      have htne : t ≠ [] := by
        intro ht
        rw [ht] at h
        simp at h
      rw [ih h]
      cases t with
      | nil => exact absurd rfl htne
      | cons e t' => rw [List.getLast?_cons_cons]
    · rw [if_neg hd]

/-- The head of a stripped string is not whitespace. -/
theorem pyStrip_head_false {l : List Char} {c : Char}
    (h : (pyStrip l).head? = some c) : isPySpace c = false := by
  rw [pyStrip, List.head?_reverse] at h
  have hne : (l.dropWhile isPySpace).reverse.dropWhile isPySpace ≠ [] := by
    intro he
    rw [he] at h
    simp at h
  rw [getLast?_dropWhile hne, List.getLast?_reverse] at h
  exact dropWhile_head_false h

/-- The last character of a stripped string is not whitespace. -/
theorem pyStrip_last_false {l : List Char} {c : Char}
    (h : (pyStrip l).getLast? = some c) : isPySpace c = false := by
  rw [pyStrip, List.getLast?_reverse] at h
  exact dropWhile_head_false h

/-- Stripping is idempotent. -/
theorem pyStrip_idem (l : List Char) : pyStrip (pyStrip l) = pyStrip l :=
  pyStrip_eq_self (fun c h => pyStrip_head_false h)
    (fun c h => pyStrip_last_false h)

/-- Characters of a stripped string come from the original. -/
theorem mem_pyStrip {l : List Char} {c : Char} (h : c ∈ pyStrip l) : c ∈ l := by
  rw [pyStrip, List.mem_reverse] at h
  have h1 := (List.dropWhile_sublist _).mem h
  rw [List.mem_reverse] at h1
  exact (List.dropWhile_sublist _).mem h1

/-- Splitting on an absent separator keeps the string whole. -/
theorem pySplit_no_sep {sep : Char} : ∀ {l : List Char}, sep ∉ l →
    pySplit sep l = [l] := by
  intro l
  induction l with
  | nil => intro _; rfl
  | cons c rest ih =>
    intro h
    have hcr : sep ∉ rest := fun hm => h (List.mem_cons_of_mem _ hm)
    have hcs : ¬(c = sep) := fun he => h (he ▸ List.mem_cons_self _ _)
    rw [pySplit, ih hcr]
    show (if c = sep then [] :: rest :: [] else (c :: rest) :: []) =
      [c :: rest]
    rw [if_neg hcs]

/-- One scan step of `findSubstrIdx` past a non-matching head. -/
theorem findSubstrIdx_cons_of_ne {pat : List Char} {c : Char} {t : List Char}
    (hne : pat.isPrefixOf (c :: t) = false) :
    findSubstrIdx pat (c :: t) = (findSubstrIdx pat t).map (· + 1) := by
  rw [findSubstrIdx]
  simp [hne]

/-- C7 (amended): the statement parser is total and always produces at least
one record with one alias slot per record (it never raises); a heuristic line
`from <rest>` that contains no `import` token degrades to one record with an
empty from-path and an empty target — the remainder is discarded, not kept; a
line `import <rest>` with no commas (and no parenthesis, which would be
deleted) keeps the whole stripped remainder as its single import target. -/
theorem C7_degrades :
    (∀ line : List Char, (lineParse line).1.length =
      (lineParse line).2.length ∧ (lineParse line).1 ≠ []) ∧
    (∀ rest : List Char, findSubstrIdx (str ("import")) rest = none →
      lineParse (str ("from ") ++ rest) = ([[[]]], [[]])) ∧
    (∀ rest : List Char, ',' ∉ rest → '(' ∉ rest →
      lineTargets (str ("import ") ++ rest) = [pyStrip rest]) := by
  refine ⟨?_, ?_, ?_⟩
  · intro line
    constructor
    · simp [lineParse, getAliasList, List.length_map]
    · simp only [lineParse, getAliasList, getImports]
      intro h
      simp only [List.map_eq_nil_iff] at h
      exact pySplit_ne_nil ',' _ h
  · intro rest h
    have hshape : str ("from ") ++ rest =
        'f' :: 'r' :: 'o' :: 'm' :: ' ' :: rest := by
      rw [show str ("from ") = ['f', 'r', 'o', 'm', ' '] from by decide]
      rfl
    have h5 : findSubstrIdx (str ("import")) (str ("from ") ++ rest) =
        none := by
      rw [hshape]
      have s1 : findSubstrIdx (str ("import"))
          ('f' :: 'r' :: 'o' :: 'm' :: ' ' :: rest) =
          (findSubstrIdx (str ("import"))
            ('r' :: 'o' :: 'm' :: ' ' :: rest)).map (· + 1) :=
        findSubstrIdx_cons_of_ne rfl
      have s2 : findSubstrIdx (str ("import"))
          ('r' :: 'o' :: 'm' :: ' ' :: rest) =
          (findSubstrIdx (str ("import"))
            ('o' :: 'm' :: ' ' :: rest)).map (· + 1) :=
        findSubstrIdx_cons_of_ne rfl
      have s3 : findSubstrIdx (str ("import")) ('o' :: 'm' :: ' ' :: rest) =
          (findSubstrIdx (str ("import")) ('m' :: ' ' :: rest)).map (· + 1) :=
        findSubstrIdx_cons_of_ne rfl
      have s4 : findSubstrIdx (str ("import")) ('m' :: ' ' :: rest) =
          (findSubstrIdx (str ("import")) (' ' :: rest)).map (· + 1) :=
        findSubstrIdx_cons_of_ne rfl
      have s5 : findSubstrIdx (str ("import")) (' ' :: rest) =
          (findSubstrIdx (str ("import")) rest).map (· + 1) :=
        findSubstrIdx_cons_of_ne rfl
      rw [s1, s2, s3, s4, s5, h]
      rfl
    have hgfi : getFromImport (str ("from ") ++ rest) = ([], []) := by
      rw [getFromImport, h5]
    simp only [lineParse, hgfi]
    decide
  · intro rest hc hp
    have hshape : str ("import ") ++ rest =
        'i' :: 'm' :: 'p' :: 'o' :: 'r' :: 't' :: ' ' :: rest := by
      rw [show str ("import ") = ['i', 'm', 'p', 'o', 'r', 't', ' ']
        from by decide]
      rfl
    have h0 : findSubstrIdx (str ("import")) (str ("import ") ++ rest) =
        some 0 := by
      rw [hshape, findSubstrIdx]
      have : (str ("import")).isPrefixOf
          ('i' :: 'm' :: 'p' :: 'o' :: 'r' :: 't' :: ' ' :: rest) = true := rfl
      simp [this]
    have hfi : getFromImport (str ("import ") ++ rest) =
        ([], cleanGroup (' ' :: rest)) := by
      rw [getFromImport, h0]
      have hflt : (patIndices (str ("from"))
          (str ("import ") ++ rest)).filter (fun p => decide (p < 0)) = [] := by
        apply List.filter_eq_nil_iff.mpr
        intro a _
        simp
      dsimp only
      rw [hflt]
      have hdrop : (str ("import ") ++ rest).drop (0 + 6) = ' ' :: rest := by
        rw [hshape]
        rfl
      rw [hdrop]
      rfl
    have hclean : cleanGroup (' ' :: rest) = pyStrip rest := by
      rw [cleanGroup]
      have hfil : (' ' :: rest).filter (fun c => decide (c ≠ '(')) =
          ' ' :: rest := by
        rw [List.filter_cons_of_pos (by simp)]
        rw [List.filter_eq_self.mpr]
        intro a ha
        exact decide_eq_true (fun he => hp (he ▸ ha))
      rw [hfil, pyStrip, List.dropWhile_cons]
      simp only [show isPySpace ' ' = true from rfl, if_true]
      rfl
    rw [lineTargets, hfi, hclean]
    have hnc : ',' ∉ pyStrip rest := fun h => hc (mem_pyStrip h)
    rw [pySplit_no_sep hnc]
    rw [List.map_cons, List.map_nil, pyStrip_idem]

/-- Witness for C7: the no-`import` degradation at `from x`, and the
whole-remainder target at `import a b`. -/
theorem C7_degrades_witness :
    lineParse (str ("from ") ++ str ("x")) = ([[[]]], [[]]) ∧
    lineTargets (str ("import ") ++ str ("a b")) = [pyStrip (str ("a b"))] :=
  ⟨C7_degrades.2.1 (str ("x")) (by decide),
   C7_degrades.2.2 (str ("a b")) (by decide) (by decide)⟩

/-- C7 counterexample: the heuristic-matching malformed line `from x` yields
one record with empty path and empty target: the remainder (`x`, or the whole
line) is not kept as an import target, contrary to the claim. -/
theorem C7_counterexample :
    lineParse (str ("from x")) = ([[[]]], [[]]) ∧
    ([] : List Char) ≠ str ("x") ∧ ([] : List Char) ≠ str ("from x") := by
  exact ⟨by decide, by decide, by decide⟩

/-!
Claim C8: failed reads and the rest of the scan.
-/

/-- C8 (amended): a file whose text cannot be read contributes nothing — it
adds no import lines and no records; the scan of a list containing it equals the
scan without it, so the rest of the directory is unaffected; the failure is
reported for `.py` files whose path does not contain `__MACOSX` and for all
notebook files — but a failing `.py` path containing `__MACOSX` is silently
skipped (see the counterexample). -/
theorem C8_isolated :
    (∀ p : List Char, fileRows p none = [] ∧ fileStatements none = []) ∧
    (∀ (fs : FS) (b : Bool) (ps₁ ps₂ : List (List Char)) (p : List Char),
      getCode fs p = none →
      createDf fs { existsAttr := b, filepaths := ps₁ ++ p :: ps₂ } =
        createDf fs { existsAttr := b, filepaths := ps₁ ++ ps₂ }) ∧
    (∀ (fs : FS) (p : List Char), extOf p = str ("py") →
      fs.content p = none → containsSubstr (str ("__MACOSX")) p = false →
      getCodeReport fs p = [str ("ERROR: Cannot read ") ++ p]) ∧
    (∀ (fs : FS) (p : List Char), extOf p ≠ str ("py") → fs.nbCode p = none →
      getCodeReport fs p = [str ("ERROR: Cannot read ") ++ p]) := by
  refine ⟨fun p => ⟨rfl, rfl⟩, ?_, ?_, ?_⟩
  · intro fs b ps₁ ps₂ p h
    have hdfs : ((ps₁ ++ p :: ps₂).map
        (fun q => fileRows q (getCode fs q))).filter (fun l => !l.isEmpty) =
        ((ps₁ ++ ps₂).map
          (fun q => fileRows q (getCode fs q))).filter (fun l => !l.isEmpty) := by
      rw [List.map_append, List.map_cons, List.map_append,
        List.filter_append, List.filter_append, List.filter_cons]
      have hfr : fileRows p (getCode fs p) = [] := by
        rw [h]
        rfl
      rw [hfr]
      simp
    rw [createDf, createDf]
    cases b with
    | false => rfl
    | true =>
      dsimp only
      rw [hdfs]
  · intro fs p hext hcon hmac
    rw [getCodeReport, if_pos hext, hcon]
    rw [hmac]
    simp
  · intro fs p hext hnb
    rw [getCodeReport, if_neg hext, hnb]

/-- A filesystem on which every read fails. -/
def fsMac : FS :=
  { pathExists := fun _ => true
    pathIsFile := fun _ => true
    walkAll := fun _ => []
    content := fun _ => none
    nbCode := fun _ => none
    listdir := fun _ => [] }

/-- Witness for C8 at concrete files: an unreadable ordinary `.py` file is
reported and an unreadable notebook is reported, while the contribution of an
unreadable file is empty and its presence does not change the scan. -/
theorem C8_isolated_witness :
    fileRows (str ("/q/a.py")) none = [] ∧
    createDf fsMac { existsAttr := true, filepaths := [str ("/q/a.py")] } =
      createDf fsMac { existsAttr := true, filepaths := [] } ∧
    getCodeReport fsMac (str ("/q/a.py")) =
      [str ("ERROR: Cannot read ") ++ str ("/q/a.py")] ∧
    getCodeReport fsMac (str ("/q/b.ipynb")) =
      [str ("ERROR: Cannot read ") ++ str ("/q/b.ipynb")] :=
  ⟨(C8_isolated.1 (str ("/q/a.py"))).1,
   C8_isolated.2.1 fsMac true [] [] (str ("/q/a.py")) rfl,
   C8_isolated.2.2.1 fsMac (str ("/q/a.py")) (by decide) rfl (by decide),
   C8_isolated.2.2.2 fsMac (str ("/q/b.ipynb")) (by decide) rfl⟩

/-- C8 counterexample: the unreadable `.py` file `/t/__MACOSX/a.py`
contributes nothing to the scan, but its failure is NOT reported: the
diagnostic list is empty, contradicting the claim that every read failure is
reported. -/
theorem C8_counterexample :
    fsMac.content (str ("/t/__MACOSX/a.py")) = none ∧
    extOf (str ("/t/__MACOSX/a.py")) = str ("py") ∧
    fileRows (str ("/t/__MACOSX/a.py"))
      (getCode fsMac (str ("/t/__MACOSX/a.py"))) = [] ∧
    getCodeReport fsMac (str ("/t/__MACOSX/a.py")) = [] := by
  exact ⟨rfl, by decide, rfl, by decide⟩

/-!
Claim C9: no comment text and no docstring text survives into import lines.
-/

/-- The comment scan never keeps a `#`: a reachable `#` always starts a
line-comment match, and skipped comment/docstring bodies are deleted
wholesale. -/
theorem hash_not_mem_racFuel :
    ∀ (fuel : Nat) (s : List Char),
      ('#' : Char) ∉ removeAllCommentsFuel fuel s := by
  intro fuel
  induction fuel with
  | zero => intro s; simp [removeAllCommentsFuel]
  | succ f ih =>
    intro s
    match s with
    | [] => simp [removeAllCommentsFuel]
    | c :: rest =>
      rw [removeAllCommentsFuel]
      by_cases h1 : tripleDq.isPrefixOf (c :: rest) = true
      · rw [if_pos h1]
        have hc : dq = c := by
          simp [tripleDq, List.isPrefixOf] at h1
          exact h1.1
        cases hf : findSubstrIdx tripleDq ((c :: rest).drop 3) with
        | some j => exact ih _
        | none =>
          intro hmem
          rcases List.mem_cons.mp hmem with he | hm
          · rw [← hc] at he
            exact (by decide : ¬('#' : Char) = dq) he
          · exact ih rest hm
      · rw [if_neg h1]
        by_cases h2 : tripleSq.isPrefixOf (c :: rest) = true
        · rw [if_pos h2]
          have hc : sq = c := by
            simp [tripleSq, List.isPrefixOf] at h2
            exact h2.1
          cases hf : findSubstrIdx tripleSq ((c :: rest).drop 3) with
          | some j => exact ih _
          | none =>
            intro hmem
            rcases List.mem_cons.mp hmem with he | hm
            · rw [← hc] at he
              exact (by decide : ¬('#' : Char) = sq) he
            · exact ih rest hm
        · rw [if_neg h2]
          by_cases h3 : c = '#'
          · rw [if_pos h3]
            exact ih _
          · rw [if_neg h3]
            intro hmem
            rcases List.mem_cons.mp hmem with he | hm
            · exact h3 he.symm
            · exact ih rest hm

/-- Characters of any field of a split come from the split string. -/
theorem mem_of_mem_pySplit {sep : Char} :
    ∀ {l l' : List Char} {c : Char}, l' ∈ pySplit sep l → c ∈ l' → c ∈ l := by
  intro l
  induction l with
  | nil =>
    intro l' c hl' hc
    rw [pySplit] at hl'
    simp at hl'
    subst hl'
    simp at hc
  | cons d t ih =>
    intro l' c hl' hc
    rw [pySplit] at hl'
    cases hps : pySplit sep t with
    | nil => exact absurd hps (pySplit_ne_nil sep t)
    | cons hd tl =>
      rw [hps] at hl'
      have hl2 : l' ∈ (if d = sep then [] :: hd :: tl
          else (d :: hd) :: tl) := hl'
      by_cases hds : d = sep
      · rw [if_pos hds] at hl2
        rcases List.mem_cons.mp hl2 with he | hm
        · subst he
          simp at hc
        · have hmem : l' ∈ pySplit sep t := by
            rw [hps]
            exact hm
          exact List.mem_cons_of_mem _ (ih hmem hc)
      · rw [if_neg hds] at hl2
        rcases List.mem_cons.mp hl2 with he | hm
        · subst he
          rcases List.mem_cons.mp hc with he2 | hm2
          · exact he2 ▸ List.mem_cons_self _ _
          · have hmem : hd ∈ pySplit sep t := by
              rw [hps]
              exact List.mem_cons_self _ _
            exact List.mem_cons_of_mem _ (ih hmem hm2)
        · have hmem : l' ∈ pySplit sep t := by
            rw [hps]
            exact List.mem_cons_of_mem _ hm
          exact List.mem_cons_of_mem _ (ih hmem hc)

/-- A docstring body free of double quotes closes exactly at the appended
delimiter. -/
theorem findSubstrIdx_close :
    ∀ {body : List Char}, dq ∉ body →
      findSubstrIdx tripleDq (body ++ tripleDq) = some body.length := by
  intro body
  induction body with
  | nil => intro _; rfl
  | cons c b ih =>
    intro h
    have hcb : dq ∉ b := fun hm => h (List.mem_cons_of_mem _ hm)
    have hcd : ¬(c = dq) := fun he => h (he ▸ List.mem_cons_self _ _)
    have hne : tripleDq.isPrefixOf (c :: (b ++ tripleDq)) = false := by
      have hbeq : (dq == c) = false :=
        beq_eq_false_iff_ne.mpr (fun he => hcd he.symm)
      simp [tripleDq, List.isPrefixOf, hbeq]
    rw [List.cons_append, findSubstrIdx_cons_of_ne hne, ih hcb]
    rfl

/-- The scan `removeAllCommentsFuel` of the empty text is empty at any
fuel. -/
theorem racFuel_nil : ∀ f : Nat, removeAllCommentsFuel f [] = [] := by
  intro f
  cases f <;> rfl

/-- C9: no line returned by the file scanner contains `#` (the sub removes
every reachable `#` to end of line, and skipped docstrings are deleted
wholesale), and a double-quote-free body wrapped in triple double quotes
contributes zero import lines, even when it spans several lines and contains
the word `import`. -/
theorem C9_scanner :
    (∀ (code l : List Char), l ∈ getImportLines (getCodeLines (some code)) →
      ('#' : Char) ∉ l) ∧
    (∀ body : List Char, dq ∉ body →
      getImportLines (getCodeLines
        (some (tripleDq ++ body ++ tripleDq))) = []) := by
  constructor
  · intro code l hl hc
    rw [getCodeLines] at hl
    by_cases hce : code.isEmpty = true
    · rw [if_pos hce] at hl
      simp [getImportLines] at hl
    · rw [if_neg hce] at hl
      rw [getImportLines] at hl
      rcases List.mem_map.mp hl with ⟨l₀, hl₀, hstrip⟩
      have hl₀mem : l₀ ∈ pySplit '\n' (removeAllComments code) :=
        (List.mem_filter.mp hl₀).1
      have hc0 : ('#' : Char) ∈ l₀ := mem_pyStrip (hstrip ▸ hc)
      exact hash_not_mem_racFuel _ _ (mem_of_mem_pySplit hl₀mem hc0)
  · intro body hb
    have hcode : removeAllComments (tripleDq ++ body ++ tripleDq) = [] := by
      rw [removeAllComments]
      have hlen : (tripleDq ++ body ++ tripleDq).length = body.length + 6 := by
        simp [tripleDq]
      have hshape : tripleDq ++ body ++ tripleDq =
          dq :: dq :: dq :: (body ++ tripleDq) := by
        simp [tripleDq]
      rw [hlen, hshape, removeAllCommentsFuel]
      rw [if_pos (show
        tripleDq.isPrefixOf (dq :: dq :: dq :: (body ++ tripleDq)) = true
        by simp [tripleDq, List.isPrefixOf])]
      rw [show (dq :: dq :: dq :: (body ++ tripleDq)).drop 3 =
        body ++ tripleDq from rfl]
      rw [findSubstrIdx_close hb]
      dsimp only
      have hdropall : (dq :: dq :: dq :: (body ++ tripleDq)).drop
          (3 + (body.length + 3)) = [] := by
        apply List.drop_eq_nil_of_le
        simp [tripleDq]
        omega
      rw [hdropall]
      exact racFuel_nil _
    rw [getCodeLines]
    have hne : ¬((tripleDq ++ body ++ tripleDq).isEmpty = true) := by
      simp [tripleDq]
    rw [if_neg hne, hcode]
    rfl

/-- Witness for C9: a line surviving next to a stripped `#`-comment carries no
`#`, and a multi-line docstring containing the word `import` yields no import
lines. -/
theorem C9_scanner_witness :
    (('#' : Char) ∉ str ("import a")) ∧
    getImportLines (getCodeLines
      (some (tripleDq ++ str ("\nimport os\n") ++ tripleDq))) = [] :=
  ⟨C9_scanner.1 (str ("import a # x")) (str ("import a")) (by decide),
   C9_scanner.2 (str ("\nimport os\n")) (by decide)⟩

end ScanPyImports
